import Mathlib

/-!
Verification of the crossword CSP generator (src/generate.py).

The puzzle structure (class Crossword / class Variable of the crossword
module) is an external collaborator whose file is not among the core
sources; its interface is modelled from the specification.  Every solver
operation of CrosswordCreator (enforce_node_consistency, revise, ac3,
assignment_complete, consistent, order_domain_values,
select_unassigned_variable, backtrack, solve) is translated directly
from generate.py.
-/

set_option autoImplicit false

/-- Modelled from the spec: the orientation of a slot, ACROSS or DOWN
(constants Variable.ACROSS / Variable.DOWN of the missing crossword
module). -/
inductive Direction where
  | across
  | down
deriving DecidableEq

/-- Modelled from the spec: a slot (CSP variable) identified by row,
column, orientation and length; equality is structural (class Variable
of the missing crossword module). -/
structure Variable where
  i : Nat
  j : Nat
  direction : Direction
  length : Nat
deriving DecidableEq

instance : Inhabited Variable := ⟨⟨0, 0, Direction.across, 0⟩⟩

/-- A vocabulary word, as its list of characters. -/
abbrev Word := List Char

/-- Modelled from the spec: the immutable puzzle structure, exposing the
slot set, the vocabulary and the overlap table (class Crossword of the
missing crossword module; the geometry fields and the parsing code are
excluded collaborators and are omitted). -/
structure Crossword where
  vars : List Variable
  words : List Word
  overlaps : Variable → Variable → Option (Nat × Nat)

/-- Modelled from the spec: the neighbor query of the puzzle structure,
returning the slots overlapping a given slot. -/
def neighbors (c : Crossword) (v : Variable) : List Variable :=
  c.vars.filter (fun z => decide (z ≠ v) && (c.overlaps z v).isSome)

/-- The domain store: each slot's current candidate list. -/
abbrev Domains := Variable → List Word

/-- CrosswordCreator.__init__: every slot's domain starts as a copy of
the full vocabulary. -/
def initialDomains (c : Crossword) : Domains := fun _ => c.words

/-- enforce_node_consistency: remove from every slot's domain each word
whose length differs from the slot's length.  (The source first collects
all removals and then deletes them; the net effect per slot is this
filter.) -/
def enforce_node_consistency (d : Domains) : Domains :=
  fun v => (d v).filter (fun w => decide (w.length = v.length))

/-- The inner loop of revise: is there a wordY in y's domain supporting
wordX, i.e. with matching letters at the overlap positions and distinct
from wordX?  When the overlap entry is none the source's inner loop
executes continue for every wordY, so the flag can never become true. -/
def palFound (c : Crossword) (d : Domains) (x y : Variable) (wx : Word) : Bool :=
  match c.overlaps x y with
  | none => false
  | some p => (d y).any (fun wy => decide (wx.get? p.1 = wy.get? p.2) && decide (wx ≠ wy))

/-- revise: remove from x's domain every word without support in y's
domain; report whether any removal occurred, together with the updated
store.  The source accumulates removeWords (all keyed by x) and then
deletes them from self.domains[x]; the net effect is the filter below,
and revisionMade is true exactly when some word lacks support. -/
def revise (c : Crossword) (d : Domains) (x y : Variable) : Bool × Domains :=
  ((d x).any (fun wx => !(palFound c d x y wx)),
   fun v => if v = x then (d x).filter (fun wx => palFound c d x y wx) else d v)

/-- The default initial work list of ac3: every ordered pair of distinct
slots whose overlap entry is not none.  (Modelled from the spec: the
overlap table's keys are the ordered pairs of distinct slots.) -/
def allArcs (c : Crossword) : List (Variable × Variable) :=
  (c.vars.flatMap (fun x => c.vars.map (fun y => (x, y)))).filter
    (fun p => decide (p.1 ≠ p.2) && (c.overlaps p.1 p.2).isSome)

/-- The arcs the ac3 loop appends after a revision of x's domain: one
arc (z, x) for every neighbor z of x (the source does not exclude the
arc's second slot). -/
def enqueueArcs (c : Crossword) (x : Variable) : List (Variable × Variable) :=
  (neighbors c x).map (fun z => (z, x))

/-- The total number of candidates over all slots; the loop measure of
ac3. -/
def totalSize (c : Crossword) (d : Domains) : Nat :=
  (c.vars.map (fun v => (d v).length)).sum

/-- The while loop of ac3, with an explicit step budget: dequeue the
front arc, revise it, and on a revision append enqueueArcs.  The budget
is a technical device for totality; with the bound ac3Bound it is never
exhausted (the queues the program builds only mention real slots, see
the termination theorem), so the none fallback models no real run. -/
def ac3Loop (c : Crossword) : Nat → Domains → List (Variable × Variable) → Option Domains
  | 0, _, _ => none
  | _ + 1, d, [] => some d
  | n + 1, d, arc :: rest =>
    let r := revise c d arc.1 arc.2
    if r.1 then ac3Loop c n r.2 (rest ++ enqueueArcs c arc.1)
    else ac3Loop c n d rest

/-- A step budget sufficient for ac3Loop to drain its queue. -/
def ac3Bound (c : Crossword) (d : Domains) (q : List (Variable × Variable)) : Nat :=
  totalSize c d * (c.vars.length + 1) + q.length + 1

/-- The final check of ac3: no slot's domain may be empty. -/
def domainsOK (c : Crossword) (d : Domains) : Bool :=
  c.vars.all (fun v => !(d v).isEmpty)

/-- ac3: run the work loop starting from the given arcs (none selects
the default allArcs), then return False iff some domain ended empty,
together with the updated store. -/
def ac3 (c : Crossword) (d : Domains) (arcs : Option (List (Variable × Variable))) :
    Bool × Domains :=
  let q := match arcs with
    | none => allArcs c
    | some l => l
  match ac3Loop c (ac3Bound c d q) d q with
  | some d2 => (domainsOK c d2, d2)
  | none => (false, d)

/-- A (possibly incomplete) assignment: an association list from slot to
word, modelling the Python dict.  (The search only ever adds a key that
is absent from the map, so keys in the lists that actually arise are
distinct.) -/
abbrev Assignment := List (Variable × Word)

/-- Lookup of a slot's entry, Python assignment[v]. -/
def lookupA : Assignment → Variable → Option Word
  | [], _ => none
  | p :: rest, v => if p.1 = v then some p.2 else lookupA rest v

/-- Python: v in assignment.keys(). -/
def containsA (a : Assignment) (v : Variable) : Bool := (lookupA a v).isSome

/-- Python: assignment[var] = value, where var is always a fresh key at
the call sites in backtrack. -/
def insertA (a : Assignment) (v : Variable) (w : Word) : Assignment := (v, w) :: a

/-- Python: assignment.pop(var). -/
def eraseA (a : Assignment) (v : Variable) : Assignment :=
  a.filter (fun p => !(decide (p.1 = v)))

/-- assignment_complete: every slot of the puzzle has an entry. -/
def assignment_complete (c : Crossword) (a : Assignment) : Bool :=
  c.vars.all (fun v => containsA a v)

/-- consistent: assigned words are pairwise distinct across distinct
slots, have their slot's length, and agree at every overlap.  (The
`word is None` guards of the source are unreachable, since dict values
are always words drawn from domains.) -/
def consistent (c : Crossword) (a : Assignment) : Bool :=
  (a.all fun pA => a.all fun pB =>
    decide (pA.1 = pB.1) || decide (pA.2 ≠ pB.2)) &&
  (a.all fun p => decide (p.2.length = p.1.length)) &&
  (a.all fun pA => a.all fun pB =>
    decide (pA.1 = pB.1) ||
      match c.overlaps pA.1 pB.1 with
      | none => true
      | some o => decide (pA.2.get? o.1 = pB.2.get? o.2))

/-- order_domain_values: the source returns the domain in its native
order, without least-constraining-value sorting. -/
def order_domain_values (d : Domains) (var : Variable) (_assignment : Assignment) :
    List Word :=
  d var

/-- The unassigned slots: set(variables) - set(assignment.keys()). -/
def unassignedVars (c : Crossword) (a : Assignment) : List Variable :=
  c.vars.filter (fun v => !(containsA a v))

/-- A selection oracle: models random.sample drawing one element of the
unassigned set.  The oracle yields an index, reduced modulo the set's
size, so every unassigned slot is a possible draw. -/
abbrev Sel := Assignment → List Variable → Nat

/-- select_unassigned_variable: an arbitrary unassigned slot, as chosen
by the oracle (the source draws it with random.sample and ignores both
domain sizes and degrees). -/
def select_unassigned_variable (c : Crossword) (sel : Sel) (a : Assignment) : Variable :=
  let u := unassignedVars c a
  u.getD (sel a u % u.length) default

/-- The candidate loop of backtrack, threading the state of the mutable
assignment dict (second component): for each word, check consistency of
a copy extended with it; on success set the entry and recurse (f is the
recursive call), propagate a complete result up at once, and pop the
tentative entry when the branch fails. -/
def backtrackLoop (c : Crossword) (f : Assignment → Option Assignment × Assignment)
    (var : Variable) : List Word → Assignment → Option Assignment × Assignment
  | [], a => (none, a)
  | w :: ws, a =>
    if consistent c (insertA a var w) then
      let r := f (insertA a var w)
      match r.1 with
      | some res => (some res, r.2)
      | none => backtrackLoop c f var ws (eraseA r.2 var)
    else backtrackLoop c f var ws a

/-- backtrack, returning its result together with the final state of the
assignment dict passed by the caller (the source mutates its argument).
The step budget bounds the recursion depth; solve passes
|variables| + 1, which is never exhausted because every level assigns a
slot that was missing. -/
def backtrack (c : Crossword) (d : Domains) (sel : Sel) :
    Nat → Assignment → Option Assignment × Assignment
  | 0, a => (none, a)
  | n + 1, a =>
    if assignment_complete c a then (some a, a)
    else
      let var := select_unassigned_variable c sel a
      backtrackLoop c (backtrack c d sel n) var (order_domain_values d var a) a

/-- The domain store as it stands when solve reaches the search: after
enforce_node_consistency and after the ac3 call whose Boolean result
solve discards. -/
def propagated (c : Crossword) : Domains :=
  (ac3 c (enforce_node_consistency (initialDomains c)) none).2

/-- solve: enforce node consistency, run ac3 (its Boolean result is
discarded, exactly as in the source), then backtrack from the empty
assignment; only the search result is returned. -/
def solve (c : Crossword) (sel : Sel) : Option Assignment :=
  (backtrack c (propagated c) sel (c.vars.length + 1) []).1

/-- Letter agreement at an overlap entry (trivially true when none). -/
def overlapOK : Option (Nat × Nat) → Word → Word → Bool
  | none, _, _ => true
  | some o, wu, wv => decide (wu.get? o.1 = wv.get? o.2)

/-- A complete satisfying assignment in the sense of the specification:
pairwise distinct words on distinct slots, correct lengths, and letter
agreement at every overlap of distinct slots. -/
def satAssign (c : Crossword) (f : Variable → Word) : Prop :=
  (∀ u ∈ c.vars, ∀ v ∈ c.vars, u ≠ v → f u ≠ f v) ∧
  (∀ v ∈ c.vars, (f v).length = v.length) ∧
  (∀ u ∈ c.vars, ∀ v ∈ c.vars, u ≠ v →
    overlapOK (c.overlaps u v) (f u) (f v) = true)

/-- Does some word of dy support w at the overlap positions (px, py),
i.e. differ from w and agree with it on the shared letter? -/
def hasSupport (dy : List Word) (w : Word) (px py : Nat) : Bool :=
  dy.any (fun w2 => decide (w ≠ w2) && decide (w.get? px = w2.get? py))

/-- Arc consistency of x's domain with respect to y's, as a proposition:
every remaining candidate of x has a distinct, letter-compatible
supporter in y's domain whenever the two slots overlap. -/
def supported (c : Crossword) (d : Domains) (x y : Variable) : Prop :=
  ∀ p, c.overlaps x y = some p →
    ∀ w ∈ d x, ∃ w' ∈ d y, w ≠ w' ∧ w.get? p.1 = w'.get? p.2

/-! ### List helpers -/

theorem length_filter_lt_of_mem {α : Type} (p : α → Bool) {w : α} :
    ∀ {l : List α}, w ∈ l → p w = false → (l.filter p).length < l.length := by
  intro l
  induction l with
  | nil => intro h; exact absurd h (List.not_mem_nil w)
  | cons a l ih =>
    intro hw hpw
    rcases List.mem_cons.mp hw with h | h
    · subst h
      rw [List.filter_cons, hpw]
      simp only [Bool.false_eq_true, if_false, List.length_cons]
      exact Nat.lt_succ_of_le (List.length_filter_le p l)
    · rw [List.filter_cons]
      by_cases hpa : p a = true
      · simp only [hpa, if_true, List.length_cons]
        exact Nat.succ_lt_succ (ih h hpw)
      · simp only [Bool.not_eq_true] at hpa
        simp only [hpa, Bool.false_eq_true, if_false, List.length_cons]
        exact Nat.lt_succ_of_lt (ih h hpw)

theorem sum_map_le {α : Type} (f g : α → Nat) :
    ∀ (l : List α), (∀ v ∈ l, f v ≤ g v) → (l.map f).sum ≤ (l.map g).sum := by
  intro l
  induction l with
  | nil => intro _; simp
  | cons a l ih =>
    intro h
    simp only [List.map_cons, List.sum_cons]
    exact Nat.add_le_add (h a (List.mem_cons_self a l))
      (ih (fun v hv => h v (List.mem_cons_of_mem a hv)))

theorem sum_map_lt {α : Type} (f g : α → Nat) {x : α} :
    ∀ (l : List α), (∀ v ∈ l, f v ≤ g v) → x ∈ l → f x < g x →
      (l.map f).sum < (l.map g).sum := by
  intro l
  induction l with
  | nil => intro _ hx; exact absurd hx (List.not_mem_nil x)
  | cons a l ih =>
    intro h hx hfx
    simp only [List.map_cons, List.sum_cons]
    rcases List.mem_cons.mp hx with hax | hx'
    · subst hax
      exact Nat.add_lt_add_of_lt_of_le hfx
        (sum_map_le f g l (fun v hv => h v (List.mem_cons_of_mem _ hv)))
    · exact Nat.add_lt_add_of_le_of_lt (h a (List.mem_cons_self a l))
        (ih (fun v hv => h v (List.mem_cons_of_mem a hv)) hx' hfx)

/-! ### Lemmas about revise -/

theorem revise_snd_ne {c : Crossword} {d : Domains} {x y z : Variable} (h : z ≠ x) :
    (revise c d x y).2 z = d z := by
  simp only [revise]
  exact if_neg h

theorem revise_snd_self (c : Crossword) (d : Domains) (x y : Variable) :
    (revise c d x y).2 x = (d x).filter (fun wx => palFound c d x y wx) := by
  simp [revise]

theorem revise_subset (c : Crossword) (d : Domains) (x y : Variable) (v : Variable) :
    (revise c d x y).2 v ⊆ d v := by
  by_cases h : v = x
  · subst h
    rw [revise_snd_self]
    exact fun w hw => (List.mem_filter.mp hw).1
  · rw [revise_snd_ne h]
    exact fun w hw => hw

theorem revise_length_le (c : Crossword) (d : Domains) (x y : Variable) (v : Variable) :
    ((revise c d x y).2 v).length ≤ (d v).length := by
  by_cases h : v = x
  · subst h
    rw [revise_snd_self]
    exact List.length_filter_le _ _
  · rw [revise_snd_ne h]

theorem revise_false_eq {c : Crossword} {d : Domains} {x y : Variable}
    (h : (revise c d x y).1 = false) : ∀ v, (revise c d x y).2 v = d v := by
  have hall : ∀ wx ∈ d x, palFound c d x y wx = true := by
    intro wx hwx
    by_contra hc
    have hfalse : palFound c d x y wx = false := by
      cases hpal : palFound c d x y wx
      · rfl
      · exact absurd hpal hc
    have : (revise c d x y).1 = true := by
      simp only [revise]
      exact List.any_eq_true.mpr ⟨wx, hwx, by rw [hfalse]; rfl⟩
    rw [h] at this
    exact Bool.false_ne_true this
  intro v
  by_cases hv : v = x
  · subst hv
    rw [revise_snd_self]
    exact List.filter_eq_self.mpr hall
  · rw [revise_snd_ne hv]

theorem revise_true_length {c : Crossword} {d : Domains} {x y : Variable}
    (h : (revise c d x y).1 = true) :
    ((revise c d x y).2 x).length < (d x).length := by
  simp only [revise] at h
  rcases List.any_eq_true.mp h with ⟨wx, hwx, hnot⟩
  have hfalse : palFound c d x y wx = false := by
    cases hpal : palFound c d x y wx
    · rfl
    · rw [hpal] at hnot; exact absurd hnot (by decide)
  rw [revise_snd_self]
  exact length_filter_lt_of_mem _ hwx hfalse

theorem revise_totalSize_lt {c : Crossword} {d : Domains} {x y : Variable}
    (hx : x ∈ c.vars) (h : (revise c d x y).1 = true) :
    totalSize c (revise c d x y).2 < totalSize c d := by
  unfold totalSize
  exact sum_map_lt _ _ c.vars (fun v _ => revise_length_le c d x y v) hx
    (revise_true_length h)

theorem palFound_support {c : Crossword} {d : Domains} {x y : Variable}
    {p : Nat × Nat} {w : Word} (hov : c.overlaps x y = some p)
    (h : palFound c d x y w = true) :
    ∃ w' ∈ d y, w ≠ w' ∧ w.get? p.1 = w'.get? p.2 := by
  unfold palFound at h
  rw [hov] at h
  rcases List.any_eq_true.mp h with ⟨wy, hwy, hwprop⟩
  rw [Bool.and_eq_true] at hwprop
  rcases hwprop with ⟨h1, h2⟩
  exact ⟨wy, hwy, of_decide_eq_true h2, of_decide_eq_true h1⟩

theorem revise_supported {c : Crossword} {d : Domains} {x y : Variable}
    (hxy : y ≠ x) : supported c (revise c d x y).2 x y := by
  intro p hov w hw
  rw [revise_snd_self] at hw
  rcases List.mem_filter.mp hw with ⟨_, hpal⟩
  rw [revise_snd_ne hxy]
  exact palFound_support hov hpal

theorem revise_false_supported {c : Crossword} {d : Domains} {x y : Variable}
    (h : (revise c d x y).1 = false) : supported c d x y := by
  intro p hov w hw
  have hall : palFound c d x y w = true := by
    by_contra hc
    have hfalse : palFound c d x y w = false := by
      cases hpal : palFound c d x y w
      · rfl
      · exact absurd hpal hc
    have : (revise c d x y).1 = true := by
      simp only [revise]
      exact List.any_eq_true.mpr ⟨w, hw, by rw [hfalse]; rfl⟩
    rw [h] at this
    exact Bool.false_ne_true this
  exact palFound_support hov hall

/-! ### Termination of the ac3 loop -/

theorem neighbors_length_le (c : Crossword) (x : Variable) :
    (neighbors c x).length ≤ c.vars.length :=
  List.length_filter_le _ _

theorem mem_neighbors {c : Crossword} {x z : Variable} :
    z ∈ neighbors c x ↔ z ∈ c.vars ∧ z ≠ x ∧ (c.overlaps z x).isSome = true := by
  simp [neighbors, List.mem_filter, and_assoc]

theorem mem_allArcs {c : Crossword} {x y : Variable} :
    (x, y) ∈ allArcs c ↔
      x ∈ c.vars ∧ y ∈ c.vars ∧ x ≠ y ∧ (c.overlaps x y).isSome = true := by
  unfold allArcs
  rw [List.mem_filter]
  simp only [Bool.and_eq_true, decide_eq_true_eq]
  constructor
  · rintro ⟨hmem, hne, hov⟩
    rcases List.mem_flatMap.mp hmem with ⟨u, hu, hmap⟩
    rcases List.mem_map.mp hmap with ⟨v, hv, heq⟩
    injection heq with h1 h2
    subst h1; subst h2
    exact ⟨hu, hv, hne, hov⟩
  · rintro ⟨hx, hy, hne, hov⟩
    exact ⟨List.mem_flatMap.mpr ⟨x, hx, List.mem_map.mpr ⟨y, hy, rfl⟩⟩, hne, hov⟩

theorem ac3Loop_isSome (c : Crossword) :
    ∀ (n : Nat) (d : Domains) (q : List (Variable × Variable)),
      (∀ a ∈ q, a.1 ∈ c.vars) →
      totalSize c d * (c.vars.length + 1) + q.length < n →
      (ac3Loop c n d q).isSome = true := by
  intro n
  induction n with
  | zero => intro d q _ hlt; exact absurd hlt (Nat.not_lt_zero _)
  | succ n ih =>
    intro d q hq hlt
    match q with
    | [] => simp [ac3Loop]
    | arc :: rest =>
      have hx1 : arc.1 ∈ c.vars := hq arc (List.mem_cons_self _ _)
      by_cases hr : (revise c d arc.1 arc.2).1 = true
      · rw [show ac3Loop c (n + 1) d (arc :: rest) =
            ac3Loop c n (revise c d arc.1 arc.2).2 (rest ++ enqueueArcs c arc.1) from by
          simp [ac3Loop, hr]]
        apply ih
        · intro a ha
          rcases List.mem_append.mp ha with h | h
          · exact hq a (List.mem_cons_of_mem _ h)
          · rcases List.mem_map.mp h with ⟨z, hz, heq⟩
            rw [← heq]
            exact (mem_neighbors.mp hz).1
        · have hts : totalSize c (revise c d arc.1 arc.2).2 < totalSize c d :=
            revise_totalSize_lt hx1 hr
          have hE : (enqueueArcs c arc.1).length ≤ c.vars.length := by
            unfold enqueueArcs
            rw [List.length_map]
            exact neighbors_length_le c arc.1
          have hmul : (totalSize c (revise c d arc.1 arc.2).2 + 1) * (c.vars.length + 1) ≤
              totalSize c d * (c.vars.length + 1) :=
            Nat.mul_le_mul_right _ hts
          rw [Nat.add_mul, Nat.one_mul] at hmul
          rw [List.length_append]
          rw [List.length_cons] at hlt
          generalize hA : totalSize c (revise c d arc.1 arc.2).2 * (c.vars.length + 1) = A at hmul
          generalize hB : totalSize c d * (c.vars.length + 1) = B at hmul hlt
          omega
      · have hrf : (revise c d arc.1 arc.2).1 = false := by
          cases h2 : (revise c d arc.1 arc.2).1
          · rfl
          · exact absurd h2 hr
        rw [show ac3Loop c (n + 1) d (arc :: rest) = ac3Loop c n d rest from by
          simp [ac3Loop, hrf]]
        apply ih
        · exact fun a ha => hq a (List.mem_cons_of_mem _ ha)
        · rw [List.length_cons] at hlt
          omega

/-! ### Soundness of the ac3 loop (invariant of arc consistency) -/

theorem ac3Loop_supported (c : Crossword) :
    ∀ (n : Nat) (d : Domains) (q : List (Variable × Variable)) (dOut : Domains),
      (∀ a ∈ q, a.1 ∈ c.vars ∧ a.2 ∈ c.vars ∧ a.1 ≠ a.2 ∧
        (c.overlaps a.1 a.2).isSome = true) →
      (∀ x y, x ∈ c.vars → y ∈ c.vars → x ≠ y → (c.overlaps x y).isSome = true →
        (x, y) ∈ q ∨ supported c d x y) →
      ac3Loop c n d q = some dOut →
      ∀ x y, x ∈ c.vars → y ∈ c.vars → x ≠ y → (c.overlaps x y).isSome = true →
        supported c dOut x y := by
  intro n
  induction n with
  | zero =>
    intro d q dOut _ _ heq
    exact absurd heq (by simp [ac3Loop])
  | succ n ih =>
    intro d q dOut hQ hI heq
    match q with
    | [] =>
      have hd : d = dOut := by simpa [ac3Loop] using heq
      subst hd
      intro x y hx hy hxy hov
      rcases hI x y hx hy hxy hov with hmem | hs
      · exact absurd hmem (List.not_mem_nil _)
      · exact hs
    | arc :: rest =>
      have harc := hQ arc (List.mem_cons_self _ _)
      by_cases hr : (revise c d arc.1 arc.2).1 = true
      · rw [show ac3Loop c (n + 1) d (arc :: rest) =
            ac3Loop c n (revise c d arc.1 arc.2).2 (rest ++ enqueueArcs c arc.1) from by
          simp [ac3Loop, hr]] at heq
        refine ih (revise c d arc.1 arc.2).2 (rest ++ enqueueArcs c arc.1) dOut ?_ ?_ heq
        · intro a ha
          rcases List.mem_append.mp ha with h | h
          · exact hQ a (List.mem_cons_of_mem _ h)
          · rcases List.mem_map.mp h with ⟨z, hz, heqz⟩
            rcases mem_neighbors.mp hz with ⟨hzv, hzx, hzov⟩
            rw [← heqz]
            exact ⟨hzv, harc.1, hzx, hzov⟩
        · intro x y hx hy hxy hov
          by_cases hcase : x = arc.1 ∧ y = arc.2
          · rcases hcase with ⟨rfl, rfl⟩
            exact Or.inr (revise_supported (Ne.symm harc.2.2.1))
          · rcases hI x y hx hy hxy hov with hmem | hs
            · rcases List.mem_cons.mp hmem with h1 | h2
              · exact absurd ⟨congrArg Prod.fst h1, congrArg Prod.snd h1⟩ hcase
              · exact Or.inl (List.mem_append_left _ h2)
            · by_cases hyx : y = arc.1
              · subst hyx
                refine Or.inl (List.mem_append_right _ ?_)
                exact List.mem_map.mpr ⟨x, mem_neighbors.mpr ⟨hx, hxy, hov⟩, rfl⟩
              · refine Or.inr ?_
                intro p hp w hw
                have hwx : w ∈ d x := revise_subset c d arc.1 arc.2 x hw
                rcases hs p hp w hwx with ⟨w', hw', hne, hag⟩
                exact ⟨w', by rw [revise_snd_ne hyx]; exact hw', hne, hag⟩
      · have hrf : (revise c d arc.1 arc.2).1 = false := by
          cases h2 : (revise c d arc.1 arc.2).1
          · rfl
          · exact absurd h2 hr
        rw [show ac3Loop c (n + 1) d (arc :: rest) = ac3Loop c n d rest from by
          simp [ac3Loop, hrf]] at heq
        refine ih d rest dOut (fun a ha => hQ a (List.mem_cons_of_mem _ ha)) ?_ heq
        intro x y hx hy hxy hov
        rcases hI x y hx hy hxy hov with hmem | hs
        · rcases List.mem_cons.mp hmem with h1 | h2
          · have hx1 : x = arc.1 := congrArg Prod.fst h1
            have hy2 : y = arc.2 := congrArg Prod.snd h1
            subst hx1; subst hy2
            exact Or.inr (revise_false_supported hrf)
          · exact Or.inl h2
        · exact Or.inr hs

/-! ### Lemmas about assignments -/

theorem eq_false_of_not_true {b : Bool} (h : ¬ b = true) : b = false := by
  cases b
  · rfl
  · exact absurd rfl h

theorem lookupA_insert (a : Assignment) (u v : Variable) (w : Word) :
    lookupA (insertA a u w) v = if u = v then some w else lookupA a v := rfl

theorem containsA_insert (a : Assignment) (u v : Variable) (w : Word) :
    containsA (insertA a u w) v = (decide (u = v) || containsA a v) := by
  unfold containsA
  rw [lookupA_insert]
  by_cases h : u = v
  · simp [h]
  · simp [h]

theorem containsA_eq_false {a : Assignment} {v : Variable} :
    containsA a v = false ↔ ∀ p ∈ a, p.1 ≠ v := by
  induction a with
  | nil => simp [containsA, lookupA]
  | cons p rest ih =>
    show ((if p.1 = v then some p.2 else lookupA rest v).isSome = false) ↔ _
    by_cases h : p.1 = v
    · simp [h]
    · rw [if_neg h]
      show (containsA rest v = false) ↔ _
      rw [ih]
      simp [List.forall_mem_cons, h]

theorem eraseA_insertA {a : Assignment} {v : Variable} (w : Word)
    (h : containsA a v = false) : eraseA (insertA a v w) v = a := by
  have hall := containsA_eq_false.mp h
  show List.filter _ ((v, w) :: a) = a
  rw [List.filter_cons]
  have hv : (!decide (((v, w) : Variable × Word).1 = v)) = false := by simp
  rw [hv]
  simp only [Bool.false_eq_true, if_false]
  exact List.filter_eq_self.mpr (fun p hp => by simp [hall p hp])

theorem unassigned_nonempty {c : Crossword} {a : Assignment}
    (h : assignment_complete c a = false) : unassignedVars c a ≠ [] := by
  intro hnil
  have hcomp : assignment_complete c a = true := by
    unfold assignment_complete
    rw [List.all_eq_true]
    intro v hv
    by_contra hcv
    have hfv : containsA a v = false := eq_false_of_not_true hcv
    have hmem : v ∈ unassignedVars c a := List.mem_filter.mpr ⟨hv, by simp [hfv]⟩
    rw [hnil] at hmem
    exact absurd hmem (List.not_mem_nil v)
  rw [h] at hcomp
  exact Bool.false_ne_true hcomp

theorem select_mem {c : Crossword} (sel : Sel) {a : Assignment}
    (h : assignment_complete c a = false) :
    select_unassigned_variable c sel a ∈ unassignedVars c a := by
  unfold select_unassigned_variable
  have hne := unassigned_nonempty h
  have hpos : 0 < (unassignedVars c a).length := List.length_pos.mpr hne
  have hlt : sel a (unassignedVars c a) % (unassignedVars c a).length <
      (unassignedVars c a).length := Nat.mod_lt _ hpos
  rw [List.getD_eq_getElem _ _ hlt]
  exact List.getElem_mem hlt

theorem unassigned_insert (c : Crossword) (a : Assignment) (var : Variable) (w : Word) :
    unassignedVars c (insertA a var w) =
      (unassignedVars c a).filter (fun v => !decide (v = var)) := by
  unfold unassignedVars
  rw [List.filter_filter]
  apply List.filter_congr
  intro v _
  rw [containsA_insert]
  by_cases h : v = var
  · subst h; simp
  · have h2 : ¬ var = v := fun hh => h hh.symm
    simp [h, h2]

theorem missing_lt {c : Crossword} {a : Assignment} {var : Variable}
    (hvar : var ∈ unassignedVars c a) (w : Word) :
    (unassignedVars c (insertA a var w)).length < (unassignedVars c a).length := by
  rw [unassigned_insert]
  exact length_filter_lt_of_mem _ hvar (by simp)

/-! ### Lemmas about backtrack -/

theorem backtrackLoop_cons (c : Crossword) (f : Assignment → Option Assignment × Assignment)
    (var : Variable) (w : Word) (ws : List Word) (a : Assignment) :
    backtrackLoop c f var (w :: ws) a =
      if consistent c (insertA a var w) = true then
        match (f (insertA a var w)).1 with
        | some res => (some res, (f (insertA a var w)).2)
        | none => backtrackLoop c f var ws (eraseA (f (insertA a var w)).2 var)
      else backtrackLoop c f var ws a := rfl

theorem backtrackLoop_restore (c : Crossword)
    (f : Assignment → Option Assignment × Assignment) (var : Variable)
    (hf : ∀ b, (f b).1 = none → (f b).2 = b) :
    ∀ (ws : List Word) (a : Assignment), containsA a var = false →
      (backtrackLoop c f var ws a).1 = none → (backtrackLoop c f var ws a).2 = a := by
  intro ws
  induction ws with
  | nil => intro a _ _; rfl
  | cons w ws ih =>
    intro a hvar hnone
    rw [backtrackLoop_cons] at hnone ⊢
    by_cases hc : consistent c (insertA a var w) = true
    · rw [if_pos hc] at hnone ⊢
      cases hres : (f (insertA a var w)).1 with
      | some res =>
        rw [hres] at hnone
        replace hnone : (some res, (f (insertA a var w)).2).1 = none := hnone
        simp at hnone
      | none =>
        rw [hres] at hnone
        replace hnone :
            (backtrackLoop c f var ws (eraseA (f (insertA a var w)).2 var)).1 = none := hnone
        show (backtrackLoop c f var ws (eraseA (f (insertA a var w)).2 var)).2 = a
        rw [hf _ hres, eraseA_insertA w hvar] at hnone ⊢
        exact ih a hvar hnone
    · rw [if_neg hc] at hnone ⊢
      exact ih a hvar hnone

theorem backtrack_restore (c : Crossword) (d : Domains) (sel : Sel) :
    ∀ (n : Nat) (a : Assignment), (backtrack c d sel n a).1 = none →
      (backtrack c d sel n a).2 = a := by
  intro n
  induction n with
  | zero => intro a _; rfl
  | succ n ih =>
    intro a hnone
    by_cases hcomp : assignment_complete c a = true
    · rw [show backtrack c d sel (n + 1) a = (some a, a) from by
        simp [backtrack, hcomp]] at hnone
      simp at hnone
    · have hcompf := eq_false_of_not_true hcomp
      rw [show backtrack c d sel (n + 1) a =
          backtrackLoop c (backtrack c d sel n) (select_unassigned_variable c sel a)
            (order_domain_values d (select_unassigned_variable c sel a) a) a from by
        simp [backtrack, hcompf]] at hnone ⊢
      have hsel := select_mem sel hcompf
      have hvar : containsA a (select_unassigned_variable c sel a) = false := by
        have h2 := (List.mem_filter.mp hsel).2
        simpa using h2
      exact backtrackLoop_restore c _ _ (fun b => ih b) _ a hvar hnone

theorem backtrackLoop_some (c : Crossword)
    (f : Assignment → Option Assignment × Assignment) (var : Variable)
    (hf : ∀ b, (f b).1 = none → (f b).2 = b) :
    ∀ (ws : List Word) (a r s : Assignment), containsA a var = false →
      backtrackLoop c f var ws a = (some r, s) →
      ∃ w ∈ ws, consistent c (insertA a var w) = true ∧
        (f (insertA a var w)).1 = some r := by
  intro ws
  induction ws with
  | nil =>
    intro a r s _ heq
    have h1 : (none : Option Assignment) = some r := congrArg Prod.fst heq
    exact absurd h1 (by simp)
  | cons w ws ih =>
    intro a r s hvar heq
    rw [backtrackLoop_cons] at heq
    by_cases hc : consistent c (insertA a var w) = true
    · rw [if_pos hc] at heq
      cases hres : (f (insertA a var w)).1 with
      | some res =>
        rw [hres] at heq
        replace heq : (some res, (f (insertA a var w)).2) = (some r, s) := heq
        have hr : res = r := Option.some.inj (congrArg Prod.fst heq)
        exact ⟨w, List.mem_cons_self _ _, hc, by rw [hres, hr]⟩
      | none =>
        rw [hres] at heq
        replace heq :
            backtrackLoop c f var ws (eraseA (f (insertA a var w)).2 var) = (some r, s) := heq
        rw [hf _ hres, eraseA_insertA w hvar] at heq
        rcases ih a r s hvar heq with ⟨w', hw', h1, h2⟩
        exact ⟨w', List.mem_cons_of_mem _ hw', h1, h2⟩
    · rw [if_neg hc] at heq
      rcases ih a r s hvar heq with ⟨w', hw', h1, h2⟩
      exact ⟨w', List.mem_cons_of_mem _ hw', h1, h2⟩

theorem backtrack_some (c : Crossword) (d : Domains) (sel : Sel) :
    ∀ (n : Nat) (a r s : Assignment), backtrack c d sel n a = (some r, s) →
      assignment_complete c r = true ∧ (r = a ∨ consistent c r = true) := by
  intro n
  induction n with
  | zero =>
    intro a r s heq
    have h1 : (none : Option Assignment) = some r := congrArg Prod.fst heq
    exact absurd h1 (by simp)
  | succ n ih =>
    intro a r s heq
    by_cases hcomp : assignment_complete c a = true
    · rw [show backtrack c d sel (n + 1) a = (some a, a) from by
        simp [backtrack, hcomp]] at heq
      have h1 : some a = some r := congrArg Prod.fst heq
      have hra : a = r := Option.some.inj h1
      subst hra
      exact ⟨hcomp, Or.inl rfl⟩
    · have hcompf := eq_false_of_not_true hcomp
      rw [show backtrack c d sel (n + 1) a =
          backtrackLoop c (backtrack c d sel n) (select_unassigned_variable c sel a)
            (order_domain_values d (select_unassigned_variable c sel a) a) a from by
        simp [backtrack, hcompf]] at heq
      have hsel := select_mem sel hcompf
      have hvar : containsA a (select_unassigned_variable c sel a) = false := by
        have h2 := (List.mem_filter.mp hsel).2
        simpa using h2
      rcases backtrackLoop_some c _ _ (fun b => backtrack_restore c d sel n b) _ a r s
        hvar heq with ⟨w, _, hcst, hrec⟩
      have heq2 : backtrack c d sel n
          (insertA a (select_unassigned_variable c sel a) w) =
          (some r, (backtrack c d sel n
            (insertA a (select_unassigned_variable c sel a) w)).2) := by
        rw [← hrec]
      rcases ih _ r _ heq2 with ⟨hcr, hor⟩
      refine ⟨hcr, Or.inr ?_⟩
      rcases hor with hre | hcons
      · rw [hre]
        exact hcst
      · exact hcons

/-! ### Completeness of the search -/

theorem consistent_of_restriction {c : Crossword} {f : Variable → Word}
    (hsat : satAssign c f) :
    ∀ (a : Assignment), (∀ p ∈ a, p.1 ∈ c.vars ∧ p.2 = f p.1) →
      consistent c a = true := by
  intro a ha
  unfold consistent
  rw [Bool.and_eq_true, Bool.and_eq_true]
  refine ⟨⟨?_, ?_⟩, ?_⟩
  · rw [List.all_eq_true]
    intro pA hpA
    rw [List.all_eq_true]
    intro pB hpB
    by_cases h : pA.1 = pB.1
    · simp [h]
    · rw [Bool.or_eq_true]
      refine Or.inr (decide_eq_true ?_)
      rw [(ha pA hpA).2, (ha pB hpB).2]
      exact hsat.1 pA.1 (ha pA hpA).1 pB.1 (ha pB hpB).1 h
  · rw [List.all_eq_true]
    intro p hp
    refine decide_eq_true ?_
    rw [(ha p hp).2]
    exact hsat.2.1 p.1 (ha p hp).1
  · rw [List.all_eq_true]
    intro pA hpA
    rw [List.all_eq_true]
    intro pB hpB
    by_cases h : pA.1 = pB.1
    · simp [h]
    · rw [Bool.or_eq_true]
      refine Or.inr ?_
      have h3 := hsat.2.2 pA.1 (ha pA hpA).1 pB.1 (ha pB hpB).1 h
      cases hov : c.overlaps pA.1 pB.1 with
      | none => rfl
      | some o =>
        rw [hov] at h3
        replace h3 : decide ((f pA.1).get? o.1 = (f pB.1).get? o.2) = true := h3
        show decide (pA.2.get? o.1 = pB.2.get? o.2) = true
        rw [(ha pA hpA).2, (ha pB hpB).2]
        exact h3

theorem backtrackLoop_finds (c : Crossword)
    (f : Assignment → Option Assignment × Assignment) (var : Variable)
    (hf : ∀ b, (f b).1 = none → (f b).2 = b) :
    ∀ (ws : List Word) (a : Assignment), containsA a var = false →
      (∃ w ∈ ws, consistent c (insertA a var w) = true ∧
        ∃ r, (f (insertA a var w)).1 = some r) →
      ∃ r, (backtrackLoop c f var ws a).1 = some r := by
  intro ws
  induction ws with
  | nil =>
    intro a _ hex
    rcases hex with ⟨w, hw, _⟩
    exact absurd hw (List.not_mem_nil w)
  | cons w ws ih =>
    intro a hvar hex
    rw [backtrackLoop_cons]
    by_cases hc : consistent c (insertA a var w) = true
    · rw [if_pos hc]
      cases hres : (f (insertA a var w)).1 with
      | some res => exact ⟨res, rfl⟩
      | none =>
        show ∃ r, (backtrackLoop c f var ws (eraseA (f (insertA a var w)).2 var)).1 = some r
        rw [hf _ hres, eraseA_insertA w hvar]
        apply ih a hvar
        rcases hex with ⟨w', hw', hcst, r, hr⟩
        rcases List.mem_cons.mp hw' with h1 | h2
        · subst h1
          rw [hres] at hr
          exact absurd hr (by simp)
        · exact ⟨w', h2, hcst, r, hr⟩
    · rw [if_neg hc]
      apply ih a hvar
      rcases hex with ⟨w', hw', hcst, hr⟩
      rcases List.mem_cons.mp hw' with h1 | h2
      · subst h1
        exact absurd hcst hc
      · exact ⟨w', h2, hcst, hr⟩

theorem backtrack_finds (c : Crossword) (d : Domains) (sel : Sel) (f : Variable → Word)
    (hsat : satAssign c f) (hdom : ∀ v ∈ c.vars, f v ∈ d v) :
    ∀ (n : Nat) (a : Assignment),
      (unassignedVars c a).length < n →
      (∀ p ∈ a, p.1 ∈ c.vars ∧ p.2 = f p.1) →
      ∃ r, (backtrack c d sel n a).1 = some r := by
  intro n
  induction n with
  | zero => intro a hlt _; exact absurd hlt (Nat.not_lt_zero _)
  | succ n ih =>
    intro a hlt ha
    by_cases hcomp : assignment_complete c a = true
    · exact ⟨a, by simp [backtrack, hcomp]⟩
    · have hcompf := eq_false_of_not_true hcomp
      rw [show backtrack c d sel (n + 1) a =
          backtrackLoop c (backtrack c d sel n) (select_unassigned_variable c sel a)
            (order_domain_values d (select_unassigned_variable c sel a) a) a from by
        simp [backtrack, hcompf]]
      have hsel := select_mem sel hcompf
      have hvar_mem : select_unassigned_variable c sel a ∈ c.vars :=
        (List.mem_filter.mp hsel).1
      have hvar : containsA a (select_unassigned_variable c sel a) = false := by
        have h2 := (List.mem_filter.mp hsel).2
        simpa using h2
      apply backtrackLoop_finds c _ _ (fun b => backtrack_restore c d sel n b) _ a hvar
      refine ⟨f (select_unassigned_variable c sel a), hdom _ hvar_mem, ?_, ?_⟩
      · apply consistent_of_restriction hsat
        intro p hp
        rcases List.mem_cons.mp hp with h1 | h2
        · rw [h1]
          exact ⟨hvar_mem, rfl⟩
        · exact ha p h2
      · apply ih
        · have hdec := missing_lt hsel (f (select_unassigned_variable c sel a))
          omega
        · intro p hp
          rcases List.mem_cons.mp hp with h1 | h2
          · rw [h1]
            exact ⟨hvar_mem, rfl⟩
          · exact ha p h2

/-! ### Concrete puzzles used as witnesses and counterexamples -/

/-- A single slot of length 1 at the grid origin. -/
def varS : Variable := ⟨0, 0, Direction.across, 1⟩

/-- A second slot of length 1, one row below varS. -/
def varT : Variable := ⟨1, 0, Direction.across, 1⟩

/-- A selection oracle always drawing index 0. -/
def selZero : Sel := fun _ _ => 0

/-- A selection oracle always drawing index 1. -/
def sel1 : Sel := fun _ _ => 1

/-- Example 1 of the spec: a 1-cell puzzle with vocabulary A. -/
def exSingle : Crossword := ⟨[varS], [['A']], fun _ _ => none⟩

/-- A 1-cell puzzle whose only vocabulary word is too long, so node
consistency empties the domain and ac3 returns False. -/
def exEmpty : Crossword := ⟨[varS], [['A', 'B']], fun _ _ => none⟩

/-- Two slots that do not cross (the whole overlap table is none). -/
def exNoOverlap : Crossword := ⟨[varS, varT], [['A'], ['B']], fun _ _ => none⟩

/-- The node-consistent domains of exNoOverlap. -/
def dNoOverlap : Domains := enforce_node_consistency (initialDomains exNoOverlap)

/-- An across slot of length 3 crossing varDn at its second letter. -/
def varAc : Variable := ⟨0, 0, Direction.across, 3⟩

/-- A down slot of length 3 crossing varAc at its first letter. -/
def varDn : Variable := ⟨0, 1, Direction.down, 3⟩

/-- Example 2 of the spec: two crossing slots with vocabulary CAT, ACE;
position 1 of the across slot meets position 0 of the down slot. -/
def exCross : Crossword :=
  ⟨[varAc, varDn], [['C','A','T'], ['A','C','E']],
   fun u v =>
     if u = varAc ∧ v = varDn then some (1, 0)
     else if u = varDn ∧ v = varAc then some (0, 1)
     else none⟩

/-- The node-consistent domains of exCross. -/
def dCross : Domains := enforce_node_consistency (initialDomains exCross)

/-- An across slot of length 2 crossing varQ at the first letters. -/
def varP : Variable := ⟨0, 0, Direction.across, 2⟩

/-- A down slot of length 2 crossing varP at the first letters. -/
def varQ : Variable := ⟨0, 0, Direction.down, 2⟩

/-- Two crossing slots of length 2 with vocabulary AB, CD, AZ: revising
varP against varQ removes CD (no word of varQ's domain starts with C). -/
def exRev : Crossword :=
  ⟨[varP, varQ], [['A','B'], ['C','D'], ['A','Z']],
   fun u v =>
     if (u = varP ∧ v = varQ) ∨ (u = varQ ∧ v = varP) then some (0, 0) else none⟩

/-- The node-consistent domains of exRev. -/
def dRev : Domains := enforce_node_consistency (initialDomains exRev)

/-- A slot of length 2 whose propagated domain has one candidate. -/
def varS1 : Variable := ⟨0, 0, Direction.across, 2⟩

/-- A slot of length 1 whose propagated domain has two candidates. -/
def varS2 : Variable := ⟨1, 0, Direction.across, 1⟩

/-- Two non-crossing slots with domains of different sizes (one versus
two candidates after node consistency). -/
def exMRV : Crossword := ⟨[varS1, varS2], [['A'], ['B'], ['A','B']], fun _ _ => none⟩

/-- A slot of length 1, fillable from the vocabulary of exStuck. -/
def varR1 : Variable := ⟨0, 0, Direction.across, 1⟩

/-- A slot of length 2, unfillable from the vocabulary of exStuck. -/
def varR2 : Variable := ⟨0, 1, Direction.across, 2⟩

/-- A puzzle where varR2's domain is empty after node consistency, so
every search from an assignment covering only varR1 fails. -/
def exStuck : Crossword := ⟨[varR1, varR2], [['A']], fun _ _ => none⟩

/-! ### The claims -/

/-- Claim C1: whenever solve (backtracking started from the empty
assignment after enforce_node_consistency and ac3) returns a result,
that result assigns a word to every slot, words on distinct slots are
pairwise distinct, every assigned word's length equals its slot's
length, and for every pair of assigned slots with overlap (i, j) the
letters agree: wordA at i equals wordB at j. -/
theorem claim_C1_solution_validity (c : Crossword) (sel : Sel) (r : Assignment)
    (h : solve c sel = some r) :
    (∀ v ∈ c.vars, (lookupA r v).isSome = true) ∧
    (∀ p ∈ r, ∀ q ∈ r, p.1 ≠ q.1 → p.2 ≠ q.2) ∧
    (∀ p ∈ r, p.2.length = p.1.length) ∧
    (∀ p ∈ r, ∀ q ∈ r, ∀ i j, p.1 ≠ q.1 → c.overlaps p.1 q.1 = some (i, j) →
      p.2.get? i = q.2.get? j) := by
  unfold solve at h
  have heq : backtrack c (propagated c) sel (c.vars.length + 1) [] =
      (some r, (backtrack c (propagated c) sel (c.vars.length + 1) []).2) := by
    rw [← h]
  rcases backtrack_some c (propagated c) sel _ [] r _ heq with ⟨hcomp, hor⟩
  have hcompl : ∀ v ∈ c.vars, (lookupA r v).isSome = true := by
    intro v hv
    have h2 := List.all_eq_true.mp hcomp v hv
    simpa [containsA] using h2
  rcases hor with hre | hcons
  · subst hre
    refine ⟨hcompl, ?_, ?_, ?_⟩ <;> simp
  · unfold consistent at hcons
    rw [Bool.and_eq_true, Bool.and_eq_true] at hcons
    obtain ⟨⟨h1, h2⟩, h3⟩ := hcons
    refine ⟨hcompl, ?_, ?_, ?_⟩
    · intro p hp q hq hpq
      have hx := List.all_eq_true.mp (List.all_eq_true.mp h1 p hp) q hq
      rw [Bool.or_eq_true] at hx
      rcases hx with hx | hx
      · exact absurd (of_decide_eq_true hx) hpq
      · exact of_decide_eq_true hx
    · intro p hp
      exact of_decide_eq_true (List.all_eq_true.mp h2 p hp)
    · intro p hp q hq i j hpq hov
      have hx := List.all_eq_true.mp (List.all_eq_true.mp h3 p hp) q hq
      rw [Bool.or_eq_true] at hx
      rcases hx with hx | hx
      · exact absurd (of_decide_eq_true hx) hpq
      · rw [hov] at hx
        exact of_decide_eq_true hx

/-- Witness for claim C1: on the one-slot puzzle exSingle, solve returns
the assignment mapping the slot to A, and by C1 it assigns every slot. -/
theorem claim_C1_witness : (lookupA [(varS, (['A'] : Word))] varS).isSome = true :=
  (claim_C1_solution_validity exSingle selZero [(varS, ['A'])] (by decide)).1
    varS (by decide)

/-- Claim C2: if, after node consistency and arc consistency have pruned
the domains (the propagated store), some complete assignment drawing
each slot's word from its remaining domain satisfies distinctness,
length and all overlap constraints, then backtrack started from the
empty assignment returns a complete assignment rather than None, for
every choice of unassigned slot at each step (every selection oracle). -/
theorem claim_C2_search_completeness (c : Crossword) (sel : Sel) (f : Variable → Word)
    (hsat : satAssign c f) (hdom : ∀ v ∈ c.vars, f v ∈ propagated c v) :
    ((backtrack c (propagated c) sel (c.vars.length + 1) []).1).isSome = true ∧
    (∀ r, (backtrack c (propagated c) sel (c.vars.length + 1) []).1 = some r →
      assignment_complete c r = true) := by
  have hlt : (unassignedVars c ([] : Assignment)).length < c.vars.length + 1 :=
    Nat.lt_succ_of_le (List.length_filter_le _ _)
  rcases backtrack_finds c (propagated c) sel f hsat hdom (c.vars.length + 1) [] hlt
    (fun p hp => absurd hp (List.not_mem_nil p)) with ⟨r, hr⟩
  constructor
  · rw [hr]
    rfl
  · intro r' hr'
    have heq : backtrack c (propagated c) sel (c.vars.length + 1) [] =
        (some r', (backtrack c (propagated c) sel (c.vars.length + 1) []).2) := by
      rw [← hr']
    exact (backtrack_some c (propagated c) sel _ [] r' _ heq).1

/-- Witness for claim C2: the one-slot puzzle exSingle has the satisfying
assignment sending its slot to A within the propagated domains, so the
search from the empty assignment succeeds. -/
theorem claim_C2_witness :
    ((backtrack exSingle (propagated exSingle) selZero
      (exSingle.vars.length + 1) []).1).isSome = true :=
  (claim_C2_search_completeness exSingle selZero (fun _ => ['A'])
    (by unfold satAssign; decide) (by decide)).1

/-- Claim C3 (code bug): on exEmpty, ac3 ends with an empty domain and
returns False, yet solve still evaluates to the result of the
backtracking search on the propagated store -- by its definition solve
discards the Boolean that ac3 returns and invokes backtrack
unconditionally, so the search runs (and merely happens to fail) instead
of being skipped. -/
theorem claim_C3_ac3_false_still_searches :
    (ac3 exEmpty (enforce_node_consistency (initialDomains exEmpty)) none).1 = false ∧
    propagated exEmpty varS = [] ∧
    solve exEmpty selZero =
      (backtrack exEmpty (propagated exEmpty) selZero (exEmpty.vars.length + 1) []).1 ∧
    solve exEmpty selZero = none := by
  refine ⟨by decide, by decide, rfl, by decide⟩

/-- Claim C4 (code bug): on the non-crossing pair (varS, varT) of
exNoOverlap, revise does not leave varS's domain unchanged returning
False; it removes every word from varS's domain and reports a revision,
because the source checks the overlap inside the loop over y's words and
skips them all with continue, leaving the support flag false. -/
theorem claim_C4_revise_no_overlap :
    exNoOverlap.overlaps varS varT = none ∧
    dNoOverlap varS = [['A'], ['B']] ∧
    (revise exNoOverlap dNoOverlap varS varT).1 = true ∧
    (revise exNoOverlap dNoOverlap varS varT).2 varS = [] := by
  decide

/-- Claim C5: after ac3 with the default initial arc list returns True,
every ordered pair of distinct overlapping slots (x, y) with overlap
positions (px, py) is arc consistent: each word remaining in x's
domain has a distinct supporter in y's domain agreeing on the shared
letter. -/
theorem claim_C5_arc_consistency_sound (c : Crossword) (d : Domains)
    (x y : Variable) (px py : Nat) (hx : x ∈ c.vars) (hy : y ∈ c.vars)
    (hxy : x ≠ y) (hov : c.overlaps x y = some (px, py))
    (htrue : (ac3 c d none).1 = true) :
    ∀ w ∈ (ac3 c d none).2 x, ∃ w' ∈ (ac3 c d none).2 y,
      w ≠ w' ∧ w.get? px = w'.get? py := by
  cases hloop : ac3Loop c (ac3Bound c d (allArcs c)) d (allArcs c) with
  | none =>
    have hfalse : (ac3 c d none).1 = false := by simp [ac3, hloop]
    rw [htrue] at hfalse
    exact absurd hfalse (by simp)
  | some dOut =>
    have h2 : (ac3 c d none).2 = dOut := by simp [ac3, hloop]
    rw [h2]
    have hsup := ac3Loop_supported c (ac3Bound c d (allArcs c)) d (allArcs c) dOut
      (fun a ha => by
        rcases a with ⟨a1, a2⟩
        rcases mem_allArcs.mp ha with ⟨k1, k2, k3, k4⟩
        exact ⟨k1, k2, k3, k4⟩)
      (fun x' y' hx' hy' hxy' hov' => Or.inl (mem_allArcs.mpr ⟨hx', hy', hxy', hov'⟩))
      hloop x y hx hy hxy (by rw [hov]; rfl)
    intro w hw
    exact hsup (px, py) hov w hw

/-- Witness for claim C5: on the CAT/ACE crossing exCross, ac3 returns
True and the word CAT kept for the across slot has a supporter in the
down slot's domain at overlap positions (1, 0). -/
theorem claim_C5_witness :
    hasSupport ((ac3 exCross dCross none).2 varDn) (['C','A','T'] : Word) 1 0 = true := by
  rcases claim_C5_arc_consistency_sound exCross dCross varAc varDn 1 0 (by decide)
    (by decide) (by decide) (by decide) (by decide) ['C','A','T'] (by decide) with
    ⟨w', hw', hne, hag⟩
  unfold hasSupport
  exact List.any_eq_true.mpr
    ⟨w', hw', by rw [Bool.and_eq_true]; exact ⟨decide_eq_true hne, decide_eq_true hag⟩⟩

/-- Claim C6: revise only shrinks domains (each slot's new domain is a
subset of its old value), a revise reporting no revision is a no-op on
the whole store, a revise reporting a revision removes at least one
candidate from x's domain, and the ac3 work loop started on the default
arc list always drains its queue within the ac3Bound budget, so ac3
terminates for every finite vocabulary and slot set. -/
theorem claim_C6_monotone_terminating (c : Crossword) (d : Domains) (x y : Variable) :
    (∀ v, (revise c d x y).2 v ⊆ d v) ∧
    ((revise c d x y).1 = false → ∀ v, (revise c d x y).2 v = d v) ∧
    ((revise c d x y).1 = true → ((revise c d x y).2 x).length < (d x).length) ∧
    (ac3Loop c (ac3Bound c d (allArcs c)) d (allArcs c)).isSome = true := by
  refine ⟨revise_subset c d x y, fun h => revise_false_eq h,
    fun h => revise_true_length h, ?_⟩
  apply ac3Loop_isSome
  · intro a ha
    rcases a with ⟨a1, a2⟩
    exact (mem_allArcs.mp ha).1
  · show totalSize c d * (c.vars.length + 1) + (allArcs c).length <
      totalSize c d * (c.vars.length + 1) + (allArcs c).length + 1
    exact Nat.lt_succ_self _

/-- Witness for claim C6: revising varP against varQ in exRev reports a
revision and strictly shrinks varP's domain. -/
theorem claim_C6_witness :
    ((revise exRev dRev varP varQ).2 varP).length < (dRev varP).length :=
  (claim_C6_monotone_terminating exRev dRev varP varQ).2.2.1 (by decide)

/-- Claim C7 counterexample: on exRev, the dequeued arc (varP, varQ) is
revised (revise reports a revision), one loop step continues with
exactly the arcs enqueueArcs of varP appended, and that list contains
the arc (varQ, varP) -- contradicting the claim that (y, x) is not
re-enqueued. -/
theorem claim_C7_counterexample :
    (revise exRev dRev varP varQ).1 = true ∧
    ac3Loop exRev 2 dRev [(varP, varQ)] =
      ac3Loop exRev 1 (revise exRev dRev varP varQ).2 ([] ++ enqueueArcs exRev varP) ∧
    (varQ, varP) ∈ enqueueArcs exRev varP := by
  refine ⟨by decide, rfl, by decide⟩

/-- Claim C7 (amended): in the ac3 loop, when revise on the dequeued arc
(x, y) reports a revision, the arcs appended are exactly (z, x) for
every slot z that overlaps x -- including the arc (y, x), which the
source does not exclude. -/
theorem claim_C7_enqueue_all_neighbors (c : Crossword) (n : Nat) (d : Domains)
    (x y : Variable) (rest : List (Variable × Variable))
    (h : (revise c d x y).1 = true) :
    ac3Loop c (n + 1) d ((x, y) :: rest) =
      ac3Loop c n (revise c d x y).2 (rest ++ enqueueArcs c x) ∧
    ∀ z : Variable, (z, x) ∈ enqueueArcs c x ↔
      (z ∈ c.vars ∧ z ≠ x ∧ (c.overlaps z x).isSome = true) := by
  constructor
  · simp [ac3Loop, h]
  · intro z
    constructor
    · intro hz
      rcases List.mem_map.mp hz with ⟨z', hz', heq⟩
      injection heq with h1 _
      subst h1
      exact mem_neighbors.mp hz'
    · intro hz
      exact List.mem_map.mpr ⟨z, mem_neighbors.mpr hz, rfl⟩

/-- Witness for claim C7 (amended): instantiated on exRev, one revising
step on the arc (varP, varQ) continues with the enqueued arcs of varP,
and (varQ, varP) is among them because varQ overlaps varP. -/
theorem claim_C7_witness :
    (ac3Loop exRev 1 dRev [(varP, varQ)] =
      ac3Loop exRev 0 (revise exRev dRev varP varQ).2 ([] ++ enqueueArcs exRev varP)) ∧
    ((varQ, varP) ∈ enqueueArcs exRev varP ↔
      (varQ ∈ exRev.vars ∧ varQ ≠ varP ∧ (exRev.overlaps varQ varP).isSome = true)) :=
  ⟨(claim_C7_enqueue_all_neighbors exRev 0 dRev varP varQ [] (by decide)).1,
   (claim_C7_enqueue_all_neighbors exRev 0 dRev varP varQ [] (by decide)).2 varQ⟩

/-- Claim C8 (code bug): select_unassigned_variable draws an arbitrary
unassigned slot via the random oracle and ignores domain sizes: on exMRV
with the oracle drawing index 1 it returns varS2, whose propagated
domain has two candidates, although the unassigned slot varS1 has only
one -- not the minimum-remaining-values choice that its docstring and
the spec demand. -/
theorem claim_C8_select_ignores_mrv :
    select_unassigned_variable exMRV sel1 [] = varS2 ∧
    varS1 ∈ unassignedVars exMRV [] ∧
    varS1 ≠ varS2 ∧
    (propagated exMRV varS1).length = 1 ∧
    (propagated exMRV varS2).length = 2 := by
  decide

/-- Claim C9: whenever backtrack returns None, the assignment dict it
was handed is restored: the final state of the threaded assignment
equals its value at the moment of the call, every tentative extension
made during the failed search having been undone. -/
theorem claim_C9_failure_restores (c : Crossword) (d : Domains) (sel : Sel)
    (n : Nat) (a : Assignment) (h : (backtrack c d sel n a).1 = none) :
    (backtrack c d sel n a).2 = a :=
  backtrack_restore c d sel n a h

/-- Witness for claim C9: on exStuck the search from the assignment
covering only varR1 fails, and the dict ends exactly as it began. -/
theorem claim_C9_witness :
    (backtrack exStuck (propagated exStuck) selZero 3 [(varR1, (['A'] : Word))]).2 =
      [(varR1, (['A'] : Word))] :=
  claim_C9_failure_restores exStuck (propagated exStuck) selZero 3
    [(varR1, ['A'])] (by decide)

/-- Claim C10: a call to revise mutates only x's domain: the domain of
every other slot (y's included) is exactly what it was before the call.
The crossword's slot set and overlap table are immutable inputs that
revise never writes. -/
theorem claim_C10_revise_frame (c : Crossword) (d : Domains) (x y z : Variable)
    (h : z ≠ x) : (revise c d x y).2 z = d z :=
  revise_snd_ne h

/-- Witness for claim C10: revising varP against varQ in exRev leaves
varQ's domain untouched. -/
theorem claim_C10_witness :
    (revise exRev dRev varP varQ).2 varQ = dRev varQ :=
  claim_C10_revise_frame exRev dRev varP varQ varQ (by decide)
